import Mathlib

/-!
# Verification of the customs-chatbot search engine

A shallow embedding of the deterministic search/query engine of this
repository (`server/query.js` and `server/docIndex.js`), with theorems
settling the frozen claims about it.

JSON-like runtime values are modelled by the mutual inductive family
`JVal`/`JArr`/`JObj`.  Scalar leaves (`JVal.prim`) carry their JavaScript
string representation (`String(x)`), since the engine only ever consumes
scalars through `String(...)`; `JVal.null` models both `null` and
`undefined`, which the engine treats alike everywhere it can observe them
(both are caught by `x === null || x === undefined` checks, `?? ""` and
truthiness tests before any distinction could surface).  Character indices
model JavaScript string indices (the data is ASCII, where UTF-16 code
units and characters coincide).
-/

mutual

inductive JVal where
  | null
  | prim (s : String)
  | arr (xs : JArr)
  | obj (fs : JObj)
deriving Repr, DecidableEq

inductive JArr where
  | nil
  | cons (hd : JVal) (tl : JArr)
deriving Repr, DecidableEq

inductive JObj where
  | nil
  | cons (k : String) (v : JVal) (tl : JObj)
deriving Repr, DecidableEq

end

def JArr.toList : JArr → List JVal
  | .nil => []
  | .cons x xs => x :: xs.toList

def JArr.ofList : List JVal → JArr
  | [] => .nil
  | x :: xs => .cons x (JArr.ofList xs)

def JObj.toList : JObj → List (String × JVal)
  | .nil => []
  | .cons k v fs => (k, v) :: fs.toList

def JObj.ofList : List (String × JVal) → JObj
  | [] => .nil
  | (k, v) :: fs => .cons k v (JObj.ofList fs)

/-- Convenience constructor: an array value from a Lean list. -/
def jarr (l : List JVal) : JVal := .arr (JArr.ofList l)

/-- Convenience constructor: an object value from a Lean association list. -/
def jobj (l : List (String × JVal)) : JVal := .obj (JObj.ofList l)

/-- Convenience constructor: a string scalar. -/
def jstr (s : String) : JVal := .prim s

/-! ## Character and string helpers (JavaScript string operations) -/

/-- `s.toLowerCase()` at character level (the data is ASCII). -/
def lowerChars (l : List Char) : List Char := l.map Char.toLower

/-- `s.trim()`: drop whitespace from both ends. -/
def trimChars (l : List Char) : List Char :=
  ((l.dropWhile Char.isWhitespace).reverse.dropWhile Char.isWhitespace).reverse

def lowerStr (s : String) : String := ⟨lowerChars s.toList⟩

def trimStr (s : String) : String := ⟨trimChars s.toList⟩

/-- `norm` from `query.js` on a string argument:
`String(s ?? "").toLowerCase().trim()`. -/
def normStr (s : String) : String := trimStr (lowerStr s)

/-- `hay.includes(needle)`: `needle` occurs contiguously in `hay`. -/
def containsSub : List Char → List Char → Bool
  | hay, needle =>
    needle.isPrefixOf hay ||
      match hay with
      | [] => false
      | _ :: t => containsSub t needle

/-- `hay.includes(needle)` on strings. -/
def substrB (needle hay : String) : Bool := containsSub hay.toList needle.toList

/-- `hay.indexOf(needle)`: index of the first occurrence, `none` for `-1`. -/
def firstIdxOfSub : List Char → List Char → Option Nat
  | hay, needle =>
    if needle.isPrefixOf hay then some 0
    else
      match hay with
      | [] => none
      | _ :: t => (firstIdxOfSub t needle).map (· + 1)

/-- `s.split(sep)` at character level: `"".split(".") = [""]`,
`"a..b".split(".") = ["a", "", "b"]`. -/
def splitSepChars (sep : Char) : List Char → List (List Char)
  | [] => [[]]
  | c :: cs =>
    if c = sep then [] :: splitSepChars sep cs
    else
      match splitSepChars sep cs with
      | seg :: rest => (c :: seg) :: rest
      | [] => [[c]]

/-- `path.split(".")`. -/
def splitDots (s : String) : List String := (splitSepChars '.' s.toList).map (fun l => ⟨l⟩)

/-! ## `String(x)` and `norm(x)` on arbitrary values

`String(x)` for the values the engine can feed to `norm`: `""` for
`null`/`undefined` (they only reach `String` under `?? ""`, and inside an
array join both render empty), the payload for scalars, a comma join for
arrays, `"[object Object]"` for plain objects. -/

mutual

def jsStr : JVal → String
  | .null => ""
  | .prim s => s
  | .arr xs => jsStrA xs
  | .obj _ => "[object Object]"

def jsStrA : JArr → String
  | .nil => ""
  | .cons x .nil => jsStr x
  | .cons x xs => jsStr x ++ "," ++ jsStrA xs

end

/-- `norm` from `query.js` on an arbitrary value. -/
def normVal (v : JVal) : String := normStr (jsStr v)

/-! ## `flatten` (query.js lines 13-27)

Serializes a record into `"path=value"` strings, dot for object fields and
`[i]` for array indices. -/

mutual

def flattenV : JVal → String → List String
  | .null, _ => []
  | .prim s, pre => [pre ++ "=" ++ s]
  | .arr xs, pre => flattenA xs pre 0
  | .obj fs, pre => flattenO fs pre

def flattenA : JArr → String → Nat → List String
  | .nil, _, _ => []
  | .cons x xs, pre, i =>
    flattenV x (pre ++ "[" ++ toString i ++ "]") ++ flattenA xs pre (i + 1)

def flattenO : JObj → String → List String
  | .nil, _ => []
  | .cons k v fs, pre =>
    flattenV v (if pre = "" then k else pre ++ "." ++ k) ++ flattenO fs pre

end

/-- `flatten(obj)` with the default empty path. -/
def flatten (v : JVal) : List String := flattenV v ""

/-! ## Tokenization shared by both parsers

Both `query.js` and `docIndex.js` tokenize with the regular expression
`/"[^"]+"|\S+/g`: at each scan position a double-quoted span with a
non-empty body is matched first, otherwise a maximal run of non-whitespace
characters (which may contain quotes).  The scan is modelled with explicit
fuel (one unit per emitted step, each of which consumes at least one
character, so `cs.length` units never run out). -/

inductive RawTok where
  | quoted (inner : List Char)
  | plain (chars : List Char)
deriving Repr, DecidableEq

/-- Split at the first `"`: `some (before, after)` when one exists. -/
def splitAtQuote : List Char → Option (List Char × List Char)
  | [] => none
  | c :: cs =>
    if c = '"' then some ([], cs)
    else (splitAtQuote cs).map (fun p => (c :: p.1, p.2))

/-- The maximal `\S+` run at the head. -/
def takeRun (cs : List Char) : List Char := cs.takeWhile (fun c => !c.isWhitespace)

def dropRun (cs : List Char) : List Char := cs.dropWhile (fun c => !c.isWhitespace)

def jsRawToksF : Nat → List Char → List RawTok
  | 0, _ => []
  | _ + 1, [] => []
  | fuel + 1, c :: cs =>
    if c.isWhitespace then jsRawToksF fuel cs
    else if c = '"' then
      match splitAtQuote cs with
      | some (inner, rest) =>
        if inner = [] then .plain (takeRun (c :: cs)) :: jsRawToksF fuel (dropRun (c :: cs))
        else .quoted inner :: jsRawToksF fuel rest
      | none => .plain (takeRun (c :: cs)) :: jsRawToksF fuel (dropRun (c :: cs))
    else .plain (takeRun (c :: cs)) :: jsRawToksF fuel (dropRun (c :: cs))

def jsRawToks (cs : List Char) : List RawTok := jsRawToksF cs.length cs

/-- `query.js` keeps the regex match verbatim, quotes included. -/
def rawTokStr : RawTok → String
  | .quoted inner => ⟨'"' :: (inner ++ ['"'])⟩
  | .plain cs => ⟨cs⟩

/-- The token list `q.match(/"[^"]+"|\S+/g) ?? []` of `query.js`. -/
def jsTokens (cs : List Char) : List String := (jsRawToks cs).map rawTokStr

/-! ## `parseQuery` (query.js lines 29-51) -/

/-- `t.replace(/^"|"$/g, "")`: drop one leading and one trailing quote. -/
def stripOuterQuotes (s : String) : String :=
  let l := match s.toList with
    | '"' :: rest => rest
    | l => l
  ⟨if l.getLast? = some '"' then l.dropLast else l⟩

/-- The key character class `[a-zA-Z_]` of the filter regex. -/
def keyChar (c : Char) : Bool := c.isAlpha || c = '_'

/-- The match `token.match(/^([a-zA-Z_]+):(.+)$/)`: a non-empty key of key
characters, a colon, then a non-empty single-line value (`.` does not cross
a newline; `$` tolerates one trailing newline). -/
def splitKeyVal (token : String) : Option (String × String) :=
  let l := token.toList
  let key := l.takeWhile keyChar
  match l.dropWhile keyChar with
  | ':' :: rest =>
    let body := if rest.getLast? = some '\n' then rest.dropLast else rest
    if key.isEmpty || body.isEmpty || body.contains '\n' then none
    else some (⟨key⟩, ⟨body⟩)
  | _ => none

structure ParsedQuery where
  terms : List String
  filters : List (String × List String)
deriving Repr, DecidableEq

/-- Append a value to a key's filter list, keeping first-insertion key
order (JavaScript object key order). -/
def addFilter : List (String × List String) → String → String → List (String × List String)
  | [], k, v => [(k, [v])]
  | (k', vs) :: rest, k, v =>
    if k' = k then (k', vs ++ [v]) :: rest else (k', vs) :: addFilter rest k v

/-- The body of `parseQuery`'s token loop. -/
def parseStep (acc : ParsedQuery) (t : String) : ParsedQuery :=
  let token := stripOuterQuotes t
  match splitKeyVal token with
  | some kv => ⟨acc.terms, addFilter acc.filters (normStr kv.1) (normStr (stripOuterQuotes kv.2))⟩
  | none => ⟨acc.terms ++ [normStr token], acc.filters⟩

def parseQuery (input : String) : ParsedQuery :=
  let q := trimStr input
  if q = "" then ⟨[], []⟩
  else (jsTokens q.toList).foldl parseStep ⟨[], []⟩

/-! ## The filter-path table (query.js lines 53-88) -/

def FILTER_PATHS : List (String × List String) := [
  ("name", ["name.primary_name", "name.aliases"]),
  ("alias", ["name.aliases"]),
  ("dob", ["date_of_birth"]),
  ("gender", ["gender"]),
  ("nationality", ["nationality"]),
  ("race", ["race"]),
  ("passport", ["passport_numbers"]),
  ("phone", ["contact.mobile_numbers"]),
  ("mobile", ["contact.mobile_numbers"]),
  ("address", ["contact.address"]),
  ("residency", ["residency_status"]),
  ("vehicle", ["vehicle_number"]),
  ("vehicle_number", ["vehicle_number"]),
  ("vehicle_type", ["vehicle_type"]),
  ("colour", ["colour"]),
  ("color", ["colour"]),
  ("owner", ["registered_owner"]),
  ("risk", ["risk_notes"]),
  ("source", ["source"]),
  ("confidence", ["confidence_level"]),
  ("received_date", ["received_date"]),
  ("case_type", ["case_type"]),
  ("status", ["status"]),
  ("opened_date", ["opened_date"]),
  ("entry_point", ["entry_point"]),
  ("destination", ["destination"]),
  ("departure_date", ["departure_date"]),
  ("return_date", ["return_date"]),
  ("arrival_date", ["arrival_date"]),
  ("pattern", ["travel_pattern_flag"])]

def alookup {α : Type} : List (String × α) → String → Option α
  | [], _ => none
  | (k, v) :: rest, key => if k = key then some v else alookup rest key

/-- `FILTER_PATHS[k]` as a plain-map lookup.  (JavaScript property access
would also see `Object.prototype` members for exotic keys such as
`constructor`; the prototype chain is outside this embedding, which reads
the table at the JSON level, as the spec does.) -/
def lookupPaths (k : String) : Option (List String) := alookup FILTER_PATHS k

/-! ## `getByPath` (query.js lines 90-105) -/

/-- `x[part]` as the engine can observe it: a field of an object, otherwise
`undefined` (the guarded array step `x ? x[part] : undefined` also lands
here, since every falsy `x` is a non-object whose projection is already
`undefined`). -/
def jsIndex (v : JVal) (key : String) : JVal :=
  match v with
  | .obj fs => (alookup fs.toList key).getD .null
  | _ => .null

/-- One step of `cur.flatMap((x) => (x ? x[part] : undefined))`: `flatMap`
spreads an array result one level and keeps any other result — including
`undefined` — as a single element. -/
def fanStep (xs : List JVal) (key : String) : List JVal :=
  xs.flatMap (fun x =>
    match jsIndex x key with
    | .arr ys => ys.toList
    | v => [v])

/-- The `for (const part of parts)` walk.  The early `return []` on a null
`cur` is modelled by propagating `null` (projection keeps it `null`, and a
final `null` yields `[]`). -/
def getByPathAux : JVal → List String → JVal
  | cur, [] => cur
  | .null, _ :: _ => .null
  | .arr xs, key :: rest => getByPathAux (.arr (JArr.ofList (fanStep xs.toList key))) rest
  | cur, key :: rest => getByPathAux (jsIndex cur key) rest

/-- The ending of `getByPath`: `if (cur === null || cur === undefined)
return []; return Array.isArray(cur) ? cur : [cur];`. -/
def terminalElems : JVal → List JVal
  | .null => []
  | .arr xs => xs.toList
  | cur => [cur]

def getByPath (v : JVal) (path : String) : List JVal :=
  terminalElems (getByPathAux v (splitDots path))

/-! ## `passesFilters` / `passesTerms` (query.js lines 107-127) -/

/-- The `hay` list of `passesFilters`: values resolved through the key's
paths, normalised, empty strings dropped (`filter(Boolean)`). -/
def hayValues (o : JVal) (paths : List String) : List String :=
  ((paths.flatMap (fun p => getByPath o p)).map normVal).filter (fun h => h ≠ "")

def passesFilters (o : JVal) (filters : List (String × List String)) : Bool :=
  filters.all (fun kw =>
    match lookupPaths kw.1 with
    | none => true
    | some paths => kw.2.any (fun w => (hayValues o paths).any (fun h => substrB w h)))

def passesTerms (o : JVal) (terms : List String) : Bool :=
  if terms.isEmpty then true
  else
    let flat := (flatten o).map normStr
    terms.all (fun t => flat.any (fun f => substrB t f))

/-! ## `collectMatchedFields` (query.js lines 158-184) -/

mutual

def cmfV : JVal → String → List String → List String
  | .null, _, _ => []
  | .prim s, path, terms =>
    if terms.any (fun t => substrB t (normVal (.prim s))) then [path] else []
  | .arr xs, path, terms => cmfA xs path terms 0
  | .obj fs, path, terms => cmfO fs path terms

def cmfA : JArr → String → List String → Nat → List String
  | .nil, _, _, _ => []
  | .cons x xs, path, terms, i =>
    cmfV x (path ++ "[" ++ toString i ++ "]") terms ++ cmfA xs path terms (i + 1)

def cmfO : JObj → String → List String → List String
  | .nil, _, _ => []
  | .cons k v fs, path, terms =>
    cmfV v (if path = "" then k else path ++ "." ++ k) terms ++ cmfO fs path terms

end

/-- First-occurrence deduplication (JavaScript `Set` insertion order). -/
def dedupFirstAux : List String → List String → List String
  | _, [] => []
  | seen, x :: xs =>
    if seen.contains x then dedupFirstAux seen xs
    else x :: dedupFirstAux (x :: seen) xs

def collectMatchedFields (o : JVal) (terms : List String) : List String :=
  dedupFirstAux [] (cmfV o "" terms)

/-! ## `searchCollection` / `searchAll` (query.js lines 129-156) -/

/-- A search result: the matched record decorated with provenance (the
spread `{...o, matchedTerms, matchedFields}` builds a fresh object whose
record part is `o`). -/
structure SearchHit where
  record : JVal
  matchedTerms : List String
  matchedFields : List String
deriving Repr, DecidableEq

/-- `searchCollection` after `parseQuery`: `map` to a hit or `null`, then
`filter(Boolean)`. -/
def searchParsed (arr : List JVal) (pq : ParsedQuery) : List SearchHit :=
  (arr.map (fun o =>
    if !passesFilters o pq.filters then none
    else if !passesTerms o pq.terms then none
    else some (⟨o, pq.terms, collectMatchedFields o pq.terms⟩ : SearchHit))).filterMap id

def searchCollection (arr : List JVal) (input : String) : List SearchHit :=
  searchParsed arr (parseQuery input)

structure Dataset where
  persons : List JVal
  vehicles : List JVal
  first_info_reports : List JVal
  cases : List JVal
  trips : List JVal
deriving Repr, DecidableEq

structure AllResults where
  persons : List SearchHit
  vehicles : List SearchHit
  first_info_reports : List SearchHit
  cases : List SearchHit
  trips : List SearchHit
deriving Repr, DecidableEq

def searchAll (data : Dataset) (input : String) : AllResults :=
  ⟨searchCollection data.persons input,
   searchCollection data.vehicles input,
   searchCollection data.first_info_reports input,
   searchCollection data.cases input,
   searchCollection data.trips input⟩

/-! ## Concrete records from the spec's end-to-end example -/

def tanRecord : JVal :=
  jobj [("person_id", jstr "P-0001"),
        ("name", jobj [("primary_name", jstr "Tan Wei Ming")]),
        ("nationality", jstr "Malaysian"),
        ("gender", jstr "male")]

/-! ## `parseQueryTokens` (docIndex.js lines 21-47)

Same tokenizing regex, but a quoted match contributes its inner capture
(`m[1]`, quotes already gone), every raw token is trimmed, empties are
skipped, `key:value` tokens are additionally split at the first colon to
increase recall, and the expansion is deduplicated in first-occurrence
order (`new Set`). -/

/-- `(m[1] ?? m[2]).trim()` of the document tokenizer. -/
def docTokStr : RawTok → String
  | .quoted inner => trimStr ⟨inner⟩
  | .plain cs => trimStr ⟨cs⟩

def docRawTokens (cs : List Char) : List String :=
  ((jsRawToks cs).map docTokStr).filter (fun t => t ≠ "")

/-- Split at the first colon: `some (before, after)` when one exists. -/
def splitAtFirstColon : List Char → Option (List Char × List Char)
  | [] => none
  | c :: cs =>
    if c = ':' then some ([], cs)
    else (splitAtFirstColon cs).map (fun p => (c :: p.1, p.2))

/-- `expanded.push(t)` plus, when `0 < t.indexOf(":") < t.length - 1`, the
key and value halves. -/
def expandToken (t : String) : List String :=
  match splitAtFirstColon t.toList with
  | some (before, after) =>
    if before.isEmpty || after.isEmpty then [t] else [t, ⟨before⟩, ⟨after⟩]
  | none => [t]

def parseQueryTokens (q : String) : List String :=
  let text := trimStr q
  if text = "" then []
  else
    let expanded := (docRawTokens text.toList).flatMap expandToken
    dedupFirstAux [] ((expanded.map trimStr).filter (fun x => x ≠ ""))

/-! ## `buildSnippet` (docIndex.js lines 125-150) -/

/-- One iteration of the `bestIdx` loop: skip a token shorter than two
characters, otherwise keep the smaller of the current best index and the
token's first occurrence (both haystack and token lower-cased). -/
def bestStep (lower : List Char) (best : Option Nat) (rawTok : String) : Option Nat :=
  let tok := lowerChars rawTok.toList
  if tok.isEmpty || tok.length < 2 then best
  else
    match firstIdxOfSub lower tok with
    | none => best
    | some idx =>
      match best with
      | none => some idx
      | some b => if idx < b then some idx else some b

/-- The `bestIdx` loop: the smallest first-occurrence index over the
tokens, ignoring tokens shorter than two characters. -/
def bestTokenIdx (lower : List Char) (tokens : List String) : Option Nat :=
  tokens.foldl (bestStep lower) none

/-- `s.replace(/\s+/g, " ")`: each maximal whitespace run becomes one
space. -/
def collapseWs : List Char → List Char
  | [] => []
  | c :: cs =>
    if c.isWhitespace then
      match collapseWs cs with
      | d :: ds => if d = ' ' then ' ' :: ds else ' ' :: (d :: ds)
      | [] => [' ']
    else c :: collapseWs cs

def buildSnippet (text : String) (tokens : List String) : String :=
  let t := text.toList
  let lower := lowerChars t
  match bestTokenIdx lower tokens with
  | none =>
    let trimmed := trimChars (collapseWs t)
    if 220 < trimmed.length then ⟨trimmed.take 220 ++ ['…']⟩ else ⟨trimmed⟩
  | some bi =>
    let start := bi - 90
    let stop := min (bi + 180) t.length
    let snippet := trimChars (collapseWs ((t.take stop).drop start))
    ⟨(if 0 < start then ['…'] else []) ++ (snippet ++ (if stop < t.length then ['…'] else []))⟩

/-! ## The snippet algorithm as the spec states it

Written from the spec's words, independently of `buildSnippet`, for the
refinement theorem of the snippet claim: the earliest case-insensitive
occurrence of any query token anchors a window from 90 characters before
it to 180 characters after it, clamped to the text, whitespace-collapsed
and trimmed, with an ellipsis exactly on each truncated side; with no
occurrence, the first 220 characters of the collapsed text (plus an
ellipsis when truncated).  `claimSnippetAll` considers every token, as the
claim literally says; `claimSnippetMin2` restricts, as the code does, to
tokens of length at least two. -/

/-- First case-insensitive occurrence of `tok` in the lower-cased text. -/
def occIdx (lower : List Char) (tok : String) : Option Nat :=
  firstIdxOfSub lower (lowerChars tok.toList)

/-- Minimum of two optional indices (`none` is the identity). -/
def omin : Option Nat → Option Nat → Option Nat
  | none, b => b
  | some a, none => some a
  | some a, some b => some (min a b)

def earliestOccAll (lower : List Char) : List String → Option Nat
  | [] => none
  | tok :: rest => omin (occIdx lower tok) (earliestOccAll lower rest)

def earliestOccMin2 (lower : List Char) : List String → Option Nat
  | [] => none
  | tok :: rest =>
    omin (if 2 ≤ tok.length then occIdx lower tok else none) (earliestOccMin2 lower rest)

def windowSnippet (text : String) (anchor : Option Nat) : String :=
  let t := text.toList
  match anchor with
  | none =>
    let collapsed := trimChars (collapseWs t)
    if 220 < collapsed.length then ⟨collapsed.take 220 ++ ['…']⟩ else ⟨collapsed⟩
  | some i =>
    let start := i - 90
    let stop := min (i + 180) t.length
    let core := trimChars (collapseWs ((t.drop start).take (stop - start)))
    ⟨(if 0 < start then ['…'] else []) ++ (core ++ (if stop < t.length then ['…'] else []))⟩

def claimSnippetAll (text : String) (tokens : List String) : String :=
  windowSnippet text (earliestOccAll (lowerChars text.toList) tokens)

def claimSnippetMin2 (text : String) (tokens : List String) : String :=
  windowSnippet text (earliestOccMin2 (lowerChars text.toList) tokens)

/-! ## Document metadata (docIndex.js lines 49-106) -/

structure DocMeta where
  filename : String
  entity_type : String
  entity_id : String
  person_id : Option String
  case_id : Option String
  vehicle_id : Option String
  first_info_id : Option String
  trip_id : Option String
  json_meta : Option JVal
deriving Repr, DecidableEq

/-- `filename.replace(/\.(pdf|docx)$/i, "")`. -/
def stripDocExt (s : String) : String :=
  let l := s.toList
  let low := lowerChars l
  if ".pdf".toList.isSuffixOf low then ⟨l.take (l.length - 4)⟩
  else if ".docx".toList.isSuffixOf low then ⟨l.take (l.length - 5)⟩
  else s

def upperStr (s : String) : String := ⟨s.toList.map Char.toUpper⟩

/-- `/^P-\d{4}$/i`. -/
def matchPersonId : List Char → Bool
  | p :: '-' :: ds => (p = 'P' || p = 'p') && ds.length = 4 && ds.all Char.isDigit
  | _ => false

/-- `/^V-\d{3}$/i`. -/
def matchVehicleId : List Char → Bool
  | v :: '-' :: ds => (v = 'V' || v = 'v') && ds.length = 3 && ds.all Char.isDigit
  | _ => false

/-- `/^FI-\d{4}-\d{4}$/i`. -/
def matchFIId : List Char → Bool
  | f :: i :: '-' :: a :: b :: c :: d :: '-' :: e :: g :: h :: k :: [] =>
    (f = 'F' || f = 'f') && (i = 'I' || i = 'i') && [a, b, c, d, e, g, h, k].all Char.isDigit
  | _ => false

/-- The test for a leading `SC-` (case-insensitive). -/
def matchCaseId : List Char → Bool
  | s :: c :: '-' :: _ => (s = 'S' || s = 's') && (c = 'C' || c = 'c')
  | _ => false

/-- `inferDocMetaFromFilename`: `base.split("_", 2)` keeps the first two
segments, so `entity_id` is only the second underscore-separated segment
(for multi-underscore names such as `first_info_reports_...` that is just
`"info"` and none of the id patterns fire). -/
def inferDocMetaFromFilename (filename : String) : DocMeta :=
  let base := stripDocExt filename
  let segs := (splitSepChars '_' base.toList).map (fun l => (⟨l⟩ : String))
  let pfx := segs.head?
  let second := (segs.drop 1).head?
  let id := second.getD ""
  let idL := id.toList
  ⟨filename, pfx.getD "document", second.getD base,
   if matchPersonId idL then some (upperStr id) else none,
   if matchCaseId idL then some (upperStr id) else none,
   if matchVehicleId idL then some (upperStr id) else none,
   if matchFIId idL then some (upperStr id) else none,
   if pfx = some "trips" && matchPersonId idL then some base else none,
   none⟩

/-- `arr.find((x) => x[field] === id)` for a string id. -/
def findByField (arr : List JVal) (field id : String) : Option JVal :=
  arr.find? (fun x => jsIndex x field = .prim id)

def setJsonMeta (m : DocMeta) (j : Option JVal) : DocMeta :=
  match j with
  | some v =>
    ⟨m.filename, m.entity_type, m.entity_id, m.person_id, m.case_id, m.vehicle_id,
     m.first_info_id, m.trip_id, some v⟩
  | none => m

/-- `attachJsonMetadata`: the first applicable id kind is looked up in the
dataset; a found record becomes `json_meta`, a miss leaves it absent. -/
def attachJsonMetadata (meta : DocMeta) (data : Dataset) : DocMeta :=
  match meta.person_id with
  | some pid => setJsonMeta meta (findByField data.persons "person_id" pid)
  | none =>
    match meta.vehicle_id with
    | some vid => setJsonMeta meta (findByField data.vehicles "vehicle_id" vid)
    | none =>
      match meta.case_id with
      | some cid => setJsonMeta meta (findByField data.cases "case_id" cid)
      | none =>
        match meta.first_info_id with
        | some fid => setJsonMeta meta (findByField data.first_info_reports "first_info_id" fid)
        | none => meta

/-! ## `JSON.stringify` for the modelled values

Scalars are modelled by their string payloads, so they serialize as JSON
strings; the dataset's records are strings, arrays and objects, for which
this agrees with `JSON.stringify`. -/

def escapeJsonChar (c : Char) : List Char :=
  if c = '"' then ['\\', '"']
  else if c = '\\' then ['\\', '\\']
  else if c = '\n' then ['\\', 'n']
  else if c = '\r' then ['\\', 'r']
  else if c = '\t' then ['\\', 't']
  else [c]

mutual

def jsonV : JVal → String
  | .null => "null"
  | .prim s => ⟨'"' :: (s.toList.flatMap escapeJsonChar ++ ['"'])⟩
  | .arr xs => "[" ++ jsonA xs ++ "]"
  | .obj fs => "\x7b" ++ jsonO fs ++ "\x7d"

def jsonA : JArr → String
  | .nil => ""
  | .cons x .nil => jsonV x
  | .cons x xs => jsonV x ++ "," ++ jsonA xs

def jsonO : JObj → String
  | .nil => ""
  | .cons k v .nil => jsonKV k v
  | .cons k v fs => jsonKV k v ++ "," ++ jsonO fs

def jsonKV (k : String) (v : JVal) : String :=
  (⟨'"' :: (k.toList.flatMap escapeJsonChar ++ ['"', ':'])⟩ : String) ++ jsonV v

end

/-! ## `buildDocIndex` (docIndex.js lines 152-208) and
`searchDocuments` (lines 210-243)

The Fuse.js fuzzy index is an external library: it is modelled as an
opaque ranking function `fuse : String → List FuseHit` supplied by a
`fuseBuilder` parameter, exactly as the engine treats it (built once over
the doc list, queried with the joined token string).  A hit's score is the
library's rounded score, kept abstract (floating point is outside the
embedding); the engine copies it through untouched. -/

structure DocEntry where
  doc_id : String
  filename : String
  title : String
  entity_type : String
  entity_id : String
  meta : DocMeta
  text : String
  public_path : String
  searchBlob : String
deriving Repr, DecidableEq

structure FuseHit where
  item : DocEntry
  score : Option String
deriving Repr, DecidableEq

structure DocIndex where
  docs : List DocEntry
  fuse : String → List FuseHit

/-- One readable-or-not file of the docs directory: its name and either
the text extracted from it or the error that made the engine skip it. -/
structure PdfFile where
  name : String
  content : Except String String
deriving Repr

/-- `/\.pdf$/i.test(f)`. -/
def isPdfName (s : String) : Bool := ".pdf".toList.isSuffixOf (lowerChars s.toList)

/-- One entry of the `docs` list (`public_path` keeps the filename as-is:
`encodeURIComponent` leaves the unreserved characters of these ASCII
filenames unchanged). -/
def mkDocEntry (data : Dataset) (filename text : String) : DocEntry :=
  let baseMeta := inferDocMetaFromFilename filename
  let meta := attachJsonMetadata baseMeta data
  let metaText :=
    match meta.json_meta with
    | some j => jsonV j
    | none => ""
  ⟨filename, filename, filename, meta.entity_type, meta.entity_id, meta, text,
   "/docs/" ++ filename,
   lowerStr (filename ++ "\n" ++ metaText ++ "\n" ++ text)⟩

/-- `buildDocIndex`: keep the `.pdf` files, extract each one's text,
skipping (with a logged warning) any whose read or extraction fails, then
hand the doc list to the fuzzy-index builder. -/
def buildDocIndex (fuseBuilder : List DocEntry → String → List FuseHit)
    (data : Dataset) (files : List PdfFile) : DocIndex :=
  let pdfs := files.filter (fun f => isPdfName f.name)
  let docs := pdfs.filterMap (fun f =>
    match f.content with
    | .ok text => some (mkDocEntry data f.name text)
    | .error _ => none)
  ⟨docs, fuseBuilder docs⟩

structure DocResult where
  doc_id : String
  title : String
  filename : String
  entity_type : String
  entity_id : String
  meta : DocMeta
  public_path : String
  snippet : String
  matched_terms : List String
  score : Option String
deriving Repr, DecidableEq

/-- The per-hit result object of `searchDocuments`. -/
def mkDocResult (hit : FuseHit) (tokens : List String) : DocResult :=
  let d := hit.item
  ⟨d.doc_id, d.title, d.filename, d.entity_type, d.entity_id, d.meta, d.public_path,
   buildSnippet d.text tokens,
   (((tokens.map trimStr).filter (fun t => 2 ≤ t.length)).filter
     (fun t => substrB (lowerStr t) d.searchBlob)).take 12,
   hit.score⟩

/-- `searchDocuments` (the source's `limit` option defaults to 20; it is
an explicit argument here). -/
def searchDocuments (idx : DocIndex) (query : String) (limit : Nat) : List DocResult :=
  if idx.docs.isEmpty then []
  else
    let tokens := parseQueryTokens query
    let q := trimStr (String.intercalate " " tokens)
    if q = "" then []
    else ((idx.fuse q).take limit).map (fun hit => mkDocResult hit tokens)

/-! ## The path resolver as the spec states it

Written from the spec's words for the refinement theorem of the
path-resolution claim: walk the dotted segments; an array encountered
mid-path fans out, each element projected through the next segment and the
results concatenated; a null or absent spine value gives the empty
sequence.  `resolveElem` is element mode — the life of one fanned-out
element — where a dead end no longer empties the whole result but flows
through as a single `null` entry (this is the point on which the claim as
literally stated and the code part ways; see the corresponding
counterexample). -/

def resolveElem : JVal → List String → List JVal
  | x, [] => [x]
  | x, key :: rest =>
    match jsIndex x key with
    | .arr ys => ys.toList.flatMap (fun y => resolveElem y rest)
    | v => resolveElem v rest

def resolveSpine : JVal → List String → List JVal
  | v, [] => terminalElems v
  | .null, _ :: _ => []
  | .arr xs, key :: rest => xs.toList.flatMap (fun x => resolveElem x (key :: rest))
  | v, key :: rest => resolveSpine (jsIndex v key) rest

def getByPathSpec (v : JVal) (path : String) : List JVal :=
  resolveSpine v (splitDots path)

/-! ## Concrete inputs used by the claims' examples -/

/-- `{a: [null]}`: a fan-out whose only element dead-ends. -/
def c3NullElemObj : JVal := jobj [("a", jarr [JVal.null])]

/-- `{a: [{b:"x"}, {b:"x"}]}`: duplicate leaf values. -/
def c3DupObj : JVal :=
  jobj [("a", jarr [jobj [("b", jstr "x")], jobj [("b", jstr "x")]])]

/-- 95 `a`s followed by one `z`: a text whose only occurrence of the
one-character token `z` lies past the window margin. -/
def c7Text : String := ⟨List.replicate 95 'a' ++ ['z']⟩

/-- The document text of the spec's snippet example. -/
def exDocText : String := "...the shipment arrived at Tanjung Pelepas on March 3..."

/-! # Theorems

General lemmas about the embedding, followed by one theorem per claim. -/

theorem JArr.toList_ofList (l : List JVal) : (JArr.ofList l).toList = l := by
  induction l with
  | nil => rfl
  | cons x xs ih => simp [JArr.ofList, JArr.toList, ih]

mutual

theorem cmfV_nil_terms (v : JVal) (path : String) : cmfV v path [] = [] := by
  cases v with
  | null => rfl
  | prim s => simp [cmfV]
  | arr xs => exact cmfA_nil_terms xs path 0
  | obj fs => exact cmfO_nil_terms fs path

theorem cmfA_nil_terms (xs : JArr) (path : String) (i : Nat) : cmfA xs path [] i = [] := by
  cases xs with
  | nil => rfl
  | cons x t => simp [cmfA, cmfV_nil_terms, cmfA_nil_terms]

theorem cmfO_nil_terms (fs : JObj) (path : String) : cmfO fs path [] = [] := by
  cases fs with
  | nil => rfl
  | cons k v t => simp [cmfO, cmfV_nil_terms, cmfO_nil_terms]

end

theorem collectMatchedFields_nil_terms (o : JVal) : collectMatchedFields o [] = [] := by
  simp [collectMatchedFields, cmfV_nil_terms, dedupFirstAux]

theorem passesFilters_nil (o : JVal) : passesFilters o [] = true := rfl

theorem passesTerms_nil (o : JVal) : passesTerms o [] = true := rfl

theorem filterMap_some_map {α β : Type} (f : α → β) (l : List α) :
    List.filterMap (fun a => some (f a)) l = l.map f := by
  induction l with
  | nil => rfl
  | cons a t ih => simp [List.filterMap_cons, ih]

theorem searchParsed_empty_query (arr : List JVal) :
    searchParsed arr ⟨[], []⟩ = arr.map (fun o => ⟨o, [], []⟩) := by
  simp [searchParsed, passesFilters_nil, passesTerms_nil, collectMatchedFields_nil_terms,
    List.filterMap_map, filterMap_some_map]

/-- **C1** (corrected).  For a whitespace-only input, `parseQuery` does
yield empty terms and empty filters, but `searchCollection` (hence
`searchAll`) then returns *every* record of the collection — each
decorated with empty `matchedTerms` and `matchedFields` — because an
empty filter map passes every record and `passesTerms` returns `true` for
an empty term list; it does not return the empty list. -/
theorem parseQuery_blank_matches_everything (input : String) (h : trimStr input = "") :
    parseQuery input = ⟨[], []⟩
    ∧ (∀ arr : List JVal, searchCollection arr input = arr.map (fun o => ⟨o, [], []⟩))
    ∧ (∀ data : Dataset, searchAll data input =
        ⟨data.persons.map (fun o => ⟨o, [], []⟩),
         data.vehicles.map (fun o => ⟨o, [], []⟩),
         data.first_info_reports.map (fun o => ⟨o, [], []⟩),
         data.cases.map (fun o => ⟨o, [], []⟩),
         data.trips.map (fun o => ⟨o, [], []⟩)⟩) := by
  have hp : parseQuery input = ⟨[], []⟩ := by
    simp [parseQuery, h]
  have hs : ∀ arr : List JVal, searchCollection arr input = arr.map (fun o => ⟨o, [], []⟩) := by
    intro arr
    rw [searchCollection, hp, searchParsed_empty_query]
  exact ⟨hp, hs, fun data => by
    simp only [searchAll, hs]⟩

/-- **C1** witness: the theorem at the whitespace input `"   "` and the
one-person collection of the spec's end-to-end example. -/
theorem parseQuery_blank_matches_everything_witness :
    parseQuery "   " = (⟨[], []⟩ : ParsedQuery)
    ∧ searchCollection [tanRecord] "   " = [⟨tanRecord, [], []⟩] := by
  have h := parseQuery_blank_matches_everything "   " (by decide)
  exact ⟨h.1, by rw [h.2.1 [tanRecord]]; rfl⟩

/-- **C1** counterexample: on the one-person collection of the spec's
end-to-end example and the whitespace-only query `"   "`,
`searchCollection` returns that person (decorated), not the empty list the
claim demands. -/
theorem searchCollection_blank_counterexample :
    searchCollection [tanRecord] "   " = [⟨tanRecord, [], []⟩]
    ∧ searchCollection [tanRecord] "   " ≠ [] := by
  exact ⟨by decide, by decide⟩

/-- **C2** (confirmed).  `passesFilters` passes a record exactly when, for
every filter key of the query that the filter-path table knows, at least
one of that key's (parser-lower-cased) wanted values is a substring of at
least one hay value resolved through the key's paths — hay values being
normalised (lower-cased, trimmed, empties dropped), which makes the
containment case-insensitive; AND across keys, OR within a key's value
list, and a key whose `hayValues` list is empty (no resolvable values)
fails.  On the spec's one-person dataset, `"nationality:malaysian
gender:male"` returns exactly that person and `"nationality:singaporean"`
returns the empty list. -/
theorem passesFilters_characterization :
    (∀ (o : JVal) (filters : List (String × List String)),
        passesFilters o filters = true ↔
          ∀ kw ∈ filters, ∀ paths, lookupPaths kw.1 = some paths →
            ∃ w ∈ kw.2, ∃ h ∈ hayValues o paths, substrB w h = true)
    ∧ (searchCollection [tanRecord] "nationality:malaysian gender:male").map SearchHit.record
        = [tanRecord]
    ∧ searchCollection [tanRecord] "nationality:singaporean" = [] := by
  refine ⟨fun o filters => ?_, by decide, by decide⟩
  rw [passesFilters, List.all_eq_true]
  refine forall_congr' fun kw => forall_congr' fun _ => ?_
  cases hl : lookupPaths kw.1 with
  | none => simp [hl]
  | some ps => simp [hl, List.any_eq_true]

theorem getByPathAux_arr_eq (parts : List String) : ∀ xs : JArr,
    terminalElems (getByPathAux (.arr xs) parts)
      = xs.toList.flatMap (fun x => resolveElem x parts) := by
  induction parts with
  | nil =>
    intro xs
    show xs.toList = xs.toList.flatMap (fun x => resolveElem x [])
    simp [resolveElem]
  | cons p rest ih =>
    intro xs
    show terminalElems (getByPathAux (.arr (JArr.ofList (fanStep xs.toList p))) rest) = _
    rw [ih (JArr.ofList (fanStep xs.toList p)), JArr.toList_ofList]
    rw [fanStep, List.flatMap_assoc]
    have hpoint : ∀ x : JVal,
        ((match jsIndex x p with
          | .arr ys => ys.toList
          | v => [v]) : List JVal).flatMap (fun y => resolveElem y rest)
          = resolveElem x (p :: rest) := by
      intro x
      cases hj : jsIndex x p with
      | null => simp [resolveElem, hj]
      | prim s => simp [resolveElem, hj]
      | arr ys => simp [resolveElem, hj]
      | obj fs => simp [resolveElem, hj]
    simp only [funext hpoint]

theorem getByPathAux_spine (parts : List String) : ∀ v : JVal,
    terminalElems (getByPathAux v parts) = resolveSpine v parts := by
  induction parts with
  | nil => intro v; cases v <;> rfl
  | cons p rest ih =>
    intro v
    cases v with
    | null => rfl
    | arr xs => exact getByPathAux_arr_eq (p :: rest) xs
    | prim s => exact ih (jsIndex (.prim s) p)
    | obj fs => exact ih (jsIndex (.obj fs) p)

/-- **C3** (corrected).  The path resolver agrees with the claim's
description amended on one point: a null or absent value empties the
result only on the spine (before any array fan-out); once an array has
fanned out, an element whose projection dead-ends contributes a single
null entry to the output (which downstream normalisation turns into `""`
and drops) instead of being removed.  `getByPathSpec` states the walk in
that element-wise form — fan out through any mid-path array, project each
element through the next segment, concatenate, never error or truncate —
and the code equals it on every record and every dotted path; results are
not deduplicated, as the duplicate-leaf example shows. -/
theorem getByPath_resolves_as_spec :
    (∀ (v : JVal) (path : String), getByPath v path = getByPathSpec v path)
    ∧ getByPath c3DupObj "a.b" = [jstr "x", jstr "x"] := by
  exact ⟨fun v path => getByPathAux_spine (splitDots path) v, by decide⟩

/-- **C3** counterexample: on `{a: [null]}` and path `"a.b"` the
intermediate element is null, yet the resolver returns `[null]` — a
one-element sequence, not the empty sequence the claim requires for a null
or absent intermediate value (and its entry is not a leaf value reached by
the walk). -/
theorem getByPath_null_elem_counterexample :
    getByPath c3NullElemObj "a.b" = [JVal.null]
    ∧ getByPath c3NullElemObj "a.b" ≠ [] := by
  exact ⟨by decide, by decide⟩

theorem passesTerms_eq_all (o : JVal) (terms : List String) :
    passesTerms o terms
      = terms.all (fun t => ((flatten o).map normStr).any (fun f => substrB t f)) := by
  cases terms with
  | nil => rfl
  | cons t ts => rfl

/-- **C4** (confirmed).  A record passes the term stage exactly when every
free term is a substring of some normalised flattened `"path=value"`
string of the record; appending one more term conjoins one more such
condition, so the sublist of a collection passing the longer term list is
a sublist of the one passing the shorter list — adding a term can only
shrink or preserve the passing set, never grow it. -/
theorem passesTerms_monotone :
    (∀ (o : JVal) (terms : List String),
        passesTerms o terms = true ↔
          ∀ t ∈ terms, ∃ f ∈ (flatten o).map normStr, substrB t f = true)
    ∧ (∀ (o : JVal) (ts : List String) (t : String),
        passesTerms o (ts ++ [t]) = (passesTerms o ts && passesTerms o [t]))
    ∧ (∀ (arr : List JVal) (ts : List String) (t : String),
        List.Sublist (arr.filter (fun o => passesTerms o (ts ++ [t])))
          (arr.filter (fun o => passesTerms o ts))) := by
  refine ⟨fun o terms => ?_, fun o ts t => ?_, fun arr ts t => ?_⟩
  · rw [passesTerms_eq_all, List.all_eq_true]
    refine forall_congr' fun s => forall_congr' fun _ => ?_
    rw [List.any_eq_true]
  · rw [passesTerms_eq_all, passesTerms_eq_all, passesTerms_eq_all, List.all_append]
  · refine List.monotone_filter_right arr fun o h => ?_
    rw [passesTerms_eq_all, List.all_append] at h
    rw [passesTerms_eq_all]
    exact (Bool.and_eq_true _ _).mp h |>.1

/-- **C5** (confirmed).  A filter key absent from the filter-path table is
skipped by the filter loop (`if (!paths) continue`): a parsed query
containing such a key, with any value list, selects and decorates exactly
the same records as the query with that filter entry removed, so an
unknown `key:value` never excludes any record. -/
theorem unknown_filter_key_ignored (arr : List JVal) (terms : List String)
    (fPre fPost : List (String × List String)) (k : String) (vs : List String)
    (h : lookupPaths k = none) :
    searchParsed arr ⟨terms, fPre ++ (k, vs) :: fPost⟩
      = searchParsed arr ⟨terms, fPre ++ fPost⟩ := by
  have hpf : ∀ o : JVal,
      passesFilters o (fPre ++ (k, vs) :: fPost) = passesFilters o (fPre ++ fPost) := by
    intro o
    simp [passesFilters, List.all_append, List.all_cons, h]
  simp only [searchParsed]
  congr 1
  exact List.map_congr_left fun o _ => by rw [hpf o]

/-- **C5** witness: the unknown key `unknownkey:anything` next to a known
nationality filter on the spec's example person — the theorem at a
concrete collection and parsed query. -/
theorem unknown_filter_key_ignored_witness :
    searchParsed [tanRecord] ⟨[], [("unknownkey", ["anything"]), ("nationality", ["malaysian"])]⟩
      = searchParsed [tanRecord] ⟨[], [("nationality", ["malaysian"])]⟩ :=
  unknown_filter_key_ignored [tanRecord] [] [] [("nationality", ["malaysian"])]
    "unknownkey" ["anything"] (by decide)

theorem mem_of_getLast?_eq {l : List Char} {c : Char} (h : l.getLast? = some c) : c ∈ l := by
  obtain ⟨hne, rfl⟩ := List.mem_getLast?_eq_getLast (show c ∈ l.getLast? by rw [h]; rfl)
  exact List.getLast_mem hne

theorem stripOuterQuotes_eq_self {s : String} (h1 : s.toList.head? ≠ some '"')
    (h2 : s.toList.getLast? ≠ some '"') : stripOuterQuotes s = s := by
  unfold stripOuterQuotes
  split
  · next rest heq => exact absurd (by rw [heq]; rfl) h1
  · next heq =>
    show (⟨if s.toList.getLast? = some '"' then s.toList.dropLast else s.toList⟩ : String) = s
    rw [if_neg h2]
    cases s
    rfl

theorem takeWhile_append_of_all {p : Char → Bool} {xs : List Char} (ys : List Char)
    (h : xs.all p = true) : (xs ++ ys).takeWhile p = xs ++ ys.takeWhile p := by
  induction xs with
  | nil => rfl
  | cons a t ih => simp_all [List.takeWhile_cons]

theorem dropWhile_append_of_all {p : Char → Bool} {xs : List Char} (ys : List Char)
    (h : xs.all p = true) : (xs ++ ys).dropWhile p = ys.dropWhile p := by
  induction xs with
  | nil => rfl
  | cons a t ih => simp_all [List.dropWhile_cons]

theorem toList_append (a b : String) : (a ++ b).toList = a.toList ++ b.toList := by
  simp [String.toList]

theorem keyChar_ne_quote {c : Char} (h : keyChar c = true) : c ≠ '"' := by
  intro hc
  subst hc
  exact absurd h (by decide)

theorem parseStep_trailing_colon (acc : ParsedQuery) (k : String)
    (hk : k.toList.all keyChar = true) :
    parseStep acc (k ++ ":") = ⟨acc.terms ++ [normStr (k ++ ":")], acc.filters⟩ := by
  have htl : (k ++ ":").toList = k.toList ++ [':'] := by rw [toList_append]; rfl
  have hstrip : stripOuterQuotes (k ++ ":") = (k ++ ":") := by
    refine stripOuterQuotes_eq_self ?_ ?_
    · rw [htl]
      cases hk' : k.toList with
      | nil => decide
      | cons c t =>
        have hck : keyChar c = true := by
          rw [hk', List.all_cons] at hk
          exact ((Bool.and_eq_true _ _).mp hk).1
        simp [keyChar_ne_quote hck]
    · rw [htl]
      simp
  have hcolon : keyChar ':' = false := rfl
  have hsplit : splitKeyVal (k ++ ":") = none := by
    simp only [splitKeyVal, htl, takeWhile_append_of_all _ hk, dropWhile_append_of_all _ hk,
      List.takeWhile_cons, List.dropWhile_cons, hcolon]
    simp
  simp [parseStep, hstrip, hsplit]

theorem parseStep_leading_colon (acc : ParsedQuery) (v : String)
    (hv : v.toList.contains '"' = false) :
    parseStep acc (":" ++ v) = ⟨acc.terms ++ [normStr (":" ++ v)], acc.filters⟩ := by
  have htl : (":" ++ v).toList = ':' :: v.toList := by rw [toList_append]; rfl
  have hstrip : stripOuterQuotes (":" ++ v) = (":" ++ v) := by
    refine stripOuterQuotes_eq_self ?_ ?_
    · rw [htl]
      simp
    · rw [htl]
      intro hlast
      rcases List.mem_cons.mp (mem_of_getLast?_eq hlast) with h | h
      · exact absurd h (by decide)
      · simp_all
  have hcolon : keyChar ':' = false := rfl
  have hsplit : splitKeyVal (":" ++ v) = none := by
    simp only [splitKeyVal, htl, List.takeWhile_cons, List.dropWhile_cons, hcolon]
    simp
  simp [parseStep, hstrip, hsplit]

/-- **C6** (confirmed).  A token made of key characters followed by a bare
colon (`x:`, empty value) and a token starting with a colon (`:y`, no key)
both fail the `key:value` regex, so the parser adds them — lower-cased and
whole, colon included — to the plain terms, touching no filter; and a
standalone double-quoted span such as `"johor bahru"` is one token whose
quotes are stripped, yielding the single term `johor bahru`. -/
theorem parseQuery_colon_edge_cases :
    (∀ (acc : ParsedQuery) (k : String), k.toList.all keyChar = true →
        parseStep acc (k ++ ":") = ⟨acc.terms ++ [normStr (k ++ ":")], acc.filters⟩)
    ∧ (∀ (acc : ParsedQuery) (v : String), v.toList.contains '"' = false →
        parseStep acc (":" ++ v) = ⟨acc.terms ++ [normStr (":" ++ v)], acc.filters⟩)
    ∧ parseQuery "x: :y" = ⟨["x:", ":y"], []⟩
    ∧ parseQuery "\"johor bahru\"" = ⟨["johor bahru"], []⟩ := by
  exact ⟨parseStep_trailing_colon, parseStep_leading_colon, by decide, by decide⟩

theorem searchParsed_shape (pq : ParsedQuery) : ∀ arr : List JVal,
    List.Sublist ((searchParsed arr pq).map SearchHit.record) arr
    ∧ (searchParsed arr pq).Forall (fun hit => hit.record ∈ arr
        ∧ hit.matchedTerms = pq.terms
        ∧ hit.matchedFields = collectMatchedFields hit.record pq.terms) := by
  intro arr
  induction arr with
  | nil => exact ⟨List.Sublist.refl [], trivial⟩
  | cons o t ih =>
    by_cases h1 : passesFilters o pq.filters = false
    · have hskip : searchParsed (o :: t) pq = searchParsed t pq := by
        simp [searchParsed, List.filterMap_cons, h1]
      rw [hskip]
      exact ⟨(ih.1).cons o,
        (ih.2).imp fun hit hp => ⟨List.mem_cons_of_mem o hp.1, hp.2.1, hp.2.2⟩⟩
    · by_cases h2 : passesTerms o pq.terms = false
      · have hskip : searchParsed (o :: t) pq = searchParsed t pq := by
          simp [searchParsed, List.filterMap_cons, h1, h2]
        rw [hskip]
        exact ⟨(ih.1).cons o,
          (ih.2).imp fun hit hp => ⟨List.mem_cons_of_mem o hp.1, hp.2.1, hp.2.2⟩⟩
      · have hkeep : searchParsed (o :: t) pq
            = ⟨o, pq.terms, collectMatchedFields o pq.terms⟩ :: searchParsed t pq := by
          simp [searchParsed, List.filterMap_cons, h1, h2]
        rw [hkeep]
        refine ⟨?_, ?_⟩
        · simpa only [List.map_cons] using List.Sublist.cons₂ o ih.1
        · rw [List.forall_cons]
          exact ⟨⟨List.mem_cons_self o t, rfl, rfl⟩,
            (ih.2).imp fun hit hp => ⟨List.mem_cons_of_mem o hp.1, hp.2.1, hp.2.2⟩⟩

/-- **C9** (confirmed).  A search never alters the collection it scans: in
this pure embedding, `searchCollection` returns fresh `SearchHit` values
whose `record` components, read off in order, form a sublist of the input
collection — each underlying record equal (not merely similar) to a member
of the collection — with the provenance decoration (`matchedTerms`,
`matchedFields`) carried in separate fields of the fresh result object. -/
theorem searchCollection_leaves_records_unchanged :
    ∀ (arr : List JVal) (input : String),
      List.Sublist ((searchCollection arr input).map SearchHit.record) arr
      ∧ (searchCollection arr input).Forall (fun hit => hit.record ∈ arr
          ∧ hit.matchedTerms = (parseQuery input).terms
          ∧ hit.matchedFields = collectMatchedFields hit.record (parseQuery input).terms) :=
  fun arr input => searchParsed_shape (parseQuery input) arr

theorem omin_assoc (a b c : Option Nat) : omin (omin a b) c = omin a (omin b c) := by
  cases a <;> cases b <;> cases c <;> simp [omin, Nat.min_assoc]

theorem omin_none_right (a : Option Nat) : omin a none = a := by
  cases a <;> rfl

theorem lowerChars_length (l : List Char) : (lowerChars l).length = l.length := by
  simp [lowerChars]

theorem bestStep_eq_omin (lower : List Char) (acc : Option Nat) (tok : String) :
    bestStep lower acc tok = omin acc (if 2 ≤ tok.length then occIdx lower tok else none) := by
  show (if (lowerChars tok.toList).isEmpty || decide ((lowerChars tok.toList).length < 2)
      then acc
      else
        match firstIdxOfSub lower (lowerChars tok.toList) with
        | none => acc
        | some idx =>
          match acc with
          | none => some idx
          | some b => if idx < b then some idx else some b)
      = omin acc (if 2 ≤ tok.length then occIdx lower tok else none)
  have hl : (lowerChars tok.toList).length = tok.length := lowerChars_length _
  by_cases h2 : 2 ≤ tok.length
  · have hcond : ((lowerChars tok.toList).isEmpty
        || decide ((lowerChars tok.toList).length < 2)) = false := by
      cases hlc : lowerChars tok.toList with
      | nil =>
        rw [hlc] at hl
        simp only [List.length_nil] at hl
        omega
      | cons c cs =>
        rw [hlc] at hl
        simp only [List.isEmpty_cons, Bool.false_or, decide_eq_false_iff_not]
        omega
    rw [hcond, if_neg (by simp), if_pos h2]
    rw [show firstIdxOfSub lower (lowerChars tok.toList) = occIdx lower tok from rfl]
    cases hf : occIdx lower tok with
    | none => cases acc <;> simp [omin]
    | some idx =>
      cases acc with
      | none => simp [omin]
      | some b =>
        simp only [omin]
        by_cases hib : idx < b
        · rw [if_pos hib]
          congr 1
          omega
        · rw [if_neg hib]
          congr 1
          omega
  · have hcond : ((lowerChars tok.toList).isEmpty
        || decide ((lowerChars tok.toList).length < 2)) = true := by
      simp only [Bool.or_eq_true, decide_eq_true_eq]
      omega
    rw [hcond, if_pos rfl, if_neg h2, omin_none_right]

theorem foldl_bestStep (lower : List Char) : ∀ (toks : List String) (acc : Option Nat),
    toks.foldl (bestStep lower) acc = omin acc (earliestOccMin2 lower toks) := by
  intro toks
  induction toks with
  | nil => intro acc; exact (omin_none_right acc).symm
  | cons tok rest ih =>
    intro acc
    rw [List.foldl_cons, ih, bestStep_eq_omin, omin_assoc]
    rfl

theorem bestTokenIdx_eq (lower : List Char) (toks : List String) :
    bestTokenIdx lower toks = earliestOccMin2 lower toks := by
  rw [bestTokenIdx, foldl_bestStep]
  rfl

theorem buildSnippet_eq_claimMin2 (text : String) (tokens : List String) :
    buildSnippet text tokens = claimSnippetMin2 text tokens := by
  simp only [buildSnippet, claimSnippetMin2, windowSnippet, bestTokenIdx_eq]
  split
  · rfl
  · rw [List.drop_take]

/-- **C7** (corrected).  The snippet builder implements exactly the
claim's window semantics — window from 90 characters before to 180 after
the earliest case-insensitive token occurrence, clamped to the text,
whitespace-collapsed and trimmed, ellipsis exactly on each truncated side,
with the 220-character fallback when no token occurs — amended on one
point: only tokens of length at least two are searched for; shorter
tokens are skipped when locating the window (`claimSnippetMin2` spells
out the amended semantics; the counterexample shows the unamended reading
fails).  On the spec's example text with token `"tanjung"`, the snippet
contains `"tanjung pelepas"` case-insensitively, and its length stays
within the 270-character window plus two one-character ellipsis marks. -/
theorem buildSnippet_window_semantics :
    (∀ (text : String) (tokens : List String),
        buildSnippet text tokens = claimSnippetMin2 text tokens)
    ∧ substrB "tanjung pelepas" (lowerStr (buildSnippet exDocText ["tanjung"])) = true
    ∧ (buildSnippet exDocText ["tanjung"]).length ≤ 272 := by
  exact ⟨buildSnippet_eq_claimMin2, by decide, by decide⟩

set_option maxRecDepth 8000 in
/-- **C7** counterexample: the text of 95 `a`s followed by `z`, with the
single one-character token `"z"`.  The token occurs (at index 95), so the
claim as stated demands the window around that occurrence (with a leading
ellipsis); the code ignores tokens shorter than two characters and takes
the no-occurrence fallback, returning the whole text unwindowed. -/
theorem buildSnippet_short_token_counterexample :
    buildSnippet c7Text ["z"] = c7Text
    ∧ buildSnippet c7Text ["z"] ≠ claimSnippetAll c7Text ["z"] := by
  exact ⟨by decide, by decide⟩

theorem docsList_nil (data : Dataset) : ∀ files : List PdfFile,
    (∀ f ∈ files, isPdfName f.name = true → f.content.toOption = none) →
    (files.filter (fun f => isPdfName f.name)).filterMap
      (fun f => match f.content with
        | .ok text => some (mkDocEntry data f.name text)
        | .error _ => none) = [] := by
  intro files
  induction files with
  | nil => intro _; rfl
  | cons f t ih =>
    intro h
    have ht := fun g hg => h g (List.mem_cons_of_mem f hg)
    by_cases hp : isPdfName f.name = true
    · have hc := h f (List.mem_cons_self f t) hp
      cases hcf : f.content with
      | ok text =>
        rw [hcf] at hc
        simp [Except.toOption] at hc
      | error e =>
        simp [List.filter_cons, hp, List.filterMap_cons, hcf, ih ht]
    · simp [List.filter_cons, hp, ih ht]

/-- **C8** (confirmed).  Building the document index over a directory with
zero readable PDF files — every file is either not a `.pdf` or fails to
read/extract (and is skipped with a logged warning) — succeeds and yields
an index whose document list is empty; every subsequent `searchDocuments`
call on that index then returns the empty list, for every query and every
limit, by the `!docIndex?.docs?.length` guard. -/
theorem buildDocIndex_no_readable_pdfs
    (fuseBuilder : List DocEntry → String → List FuseHit) (data : Dataset)
    (files : List PdfFile)
    (h : ∀ f ∈ files, isPdfName f.name = true → f.content.toOption = none) :
    (buildDocIndex fuseBuilder data files).docs = []
    ∧ ∀ (q : String) (limit : Nat),
        searchDocuments (buildDocIndex fuseBuilder data files) q limit = [] := by
  have hdocs : (buildDocIndex fuseBuilder data files).docs = [] := docsList_nil data files h
  refine ⟨hdocs, fun q limit => ?_⟩
  rw [searchDocuments, hdocs]
  rfl

/-- **C8** witness: a directory holding one unreadable PDF and one
non-PDF file, an empty dataset, and a trivial fuzzy index — the empty
docs list and an empty search result at a concrete query and limit. -/
theorem buildDocIndex_no_readable_pdfs_witness :
    (buildDocIndex (fun _ _ => []) ⟨[], [], [], [], []⟩
      [⟨"corrupt.pdf", .error "bad xref"⟩, ⟨"notes.txt", .ok "hello"⟩]).docs = []
    ∧ searchDocuments (buildDocIndex (fun _ _ => []) ⟨[], [], [], [], []⟩
        [⟨"corrupt.pdf", .error "bad xref"⟩, ⟨"notes.txt", .ok "hello"⟩]) "tan" 20 = [] := by
  have h := buildDocIndex_no_readable_pdfs (fun _ _ => []) ⟨[], [], [], [], []⟩
    [⟨"corrupt.pdf", .error "bad xref"⟩, ⟨"notes.txt", .ok "hello"⟩] (by decide)
  exact ⟨h.1, h.2 "tan" 20⟩

theorem dropWhile_eq_self_of_isPrefix {p : Char → Bool} : ∀ {m k : List Char},
    m.dropWhile p = m → k <+: m → k.dropWhile p = k := by
  intro m k hm hk
  cases k with
  | nil => rfl
  | cons a t =>
    obtain ⟨rest, hrest⟩ := hk
    have hpa : p a = false := by
      by_contra hpa
      rw [Bool.not_eq_false] at hpa
      rw [← hrest] at hm
      rw [List.cons_append, List.dropWhile_cons, if_pos hpa] at hm
      have hlen : ((t ++ rest).dropWhile p).length ≤ (t ++ rest).length :=
        (List.dropWhile_sublist ..).length_le
      rw [hm] at hlen
      simp at hlen
    rw [List.dropWhile_cons, if_neg (by simp [hpa])]

theorem trimChars_eq_rdrop (l : List Char) :
    trimChars l = List.rdropWhile Char.isWhitespace (l.dropWhile Char.isWhitespace) := rfl

theorem trimChars_idem (l : List Char) : trimChars (trimChars l) = trimChars l := by
  rw [trimChars_eq_rdrop, trimChars_eq_rdrop]
  have hm : (l.dropWhile Char.isWhitespace).dropWhile Char.isWhitespace
      = l.dropWhile Char.isWhitespace := List.dropWhile_idempotent ..
  rw [dropWhile_eq_self_of_isPrefix hm (List.rdropWhile_prefix ..),
    List.rdropWhile_idempotent]

theorem trimStr_idem (s : String) : trimStr (trimStr s) = trimStr s := by
  show (⟨trimChars (⟨trimChars s.toList⟩ : String).toList⟩ : String) = ⟨trimChars s.toList⟩
  rw [show ((⟨trimChars s.toList⟩ : String).toList) = trimChars s.toList from rfl,
    trimChars_idem]

theorem mem_dedupFirstAux {x : String} : ∀ {l seen : List String},
    x ∈ dedupFirstAux seen l → x ∈ l := by
  intro l
  induction l with
  | nil => intro seen h; exact absurd h (List.not_mem_nil x)
  | cons a t ih =>
    intro seen h
    rw [dedupFirstAux] at h
    by_cases hc : seen.contains a = true
    · rw [if_pos hc] at h
      exact List.mem_cons_of_mem a (ih h)
    · rw [if_neg hc] at h
      rcases List.mem_cons.mp h with h1 | h1
      · exact h1 ▸ List.mem_cons_self a t
      · exact List.mem_cons_of_mem a (ih h1)

theorem parseQueryTokens_trimmed (q : String) : ∀ x ∈ parseQueryTokens q, trimStr x = x := by
  intro x hx
  rw [parseQueryTokens] at hx
  split at hx
  · exact absurd hx (List.not_mem_nil x)
  · have hx' := mem_dedupFirstAux hx
    have hx'' := (List.mem_filter.mp hx').1
    obtain ⟨w, _, rfl⟩ := List.mem_map.mp hx''
    exact trimStr_idem w

theorem map_trimStr_parseQueryTokens (q : String) :
    (parseQueryTokens q).map trimStr = parseQueryTokens q := by
  rw [List.map_congr_left (fun a ha => parseQueryTokens_trimmed q a ha)]
  simp

/-- **C10** (confirmed).  `searchDocuments` returns at most `limit`
results (with the source's default of 20 when no limit option is given,
modelled by an explicit argument), each one built by `mkDocResult` from a
hit of the fuzzy index on the joined token string; every result's
`matched_terms` list has at most 12 entries, and each entry is a token of
`parseQueryTokens query` of length at least two whose lower-casing occurs
in that hit's document's precomputed lower-cased
filename+metadata+text search blob. -/
theorem searchDocuments_bounds :
    ∀ (idx : DocIndex) (query : String) (limit : Nat),
      (searchDocuments idx query limit).length ≤ limit
      ∧ (searchDocuments idx query limit).Forall (fun r =>
          r.matched_terms.length ≤ 12
          ∧ ∃ hit : FuseHit,
              hit ∈ idx.fuse (trimStr (String.intercalate " " (parseQueryTokens query)))
              ∧ r = mkDocResult hit (parseQueryTokens query)
              ∧ r.matched_terms.Forall (fun t =>
                  t ∈ parseQueryTokens query ∧ 2 ≤ t.length
                  ∧ substrB (lowerStr t) hit.item.searchBlob = true)) := by
  intro idx query limit
  by_cases hd : idx.docs.isEmpty
  · rw [searchDocuments, if_pos hd]
    exact ⟨Nat.zero_le _, trivial⟩
  · rw [searchDocuments, if_neg hd]
    by_cases hq : trimStr (String.intercalate " " (parseQueryTokens query)) = ""
    · rw [if_pos hq]
      exact ⟨Nat.zero_le _, trivial⟩
    · rw [if_neg hq]
      refine ⟨?_, ?_⟩
      · rw [List.length_map, List.length_take]
        exact min_le_left ..
      · rw [List.forall_iff_forall_mem]
        intro r hr
        obtain ⟨hit, hhit, rfl⟩ := List.mem_map.mp hr
        have hmt : (mkDocResult hit (parseQueryTokens query)).matched_terms
            = (((parseQueryTokens query).filter (fun t => 2 ≤ t.length)).filter
                (fun t => substrB (lowerStr t) hit.item.searchBlob)).take 12 := by
          show ((((parseQueryTokens query).map trimStr).filter (fun t => 2 ≤ t.length)).filter
              (fun t => substrB (lowerStr t) hit.item.searchBlob)).take 12 = _
          rw [map_trimStr_parseQueryTokens]
        refine ⟨?_, hit, List.take_subset _ _ hhit, rfl, ?_⟩
        · rw [hmt]
          exact Nat.le_trans (Nat.le_of_eq (List.length_take ..)) (min_le_left ..)
        · rw [hmt, List.forall_iff_forall_mem]
          intro t ht
          have ht' := List.take_subset _ _ ht
          obtain ⟨h12, hblob⟩ := List.mem_filter.mp ht'
          obtain ⟨htok, hlen⟩ := List.mem_filter.mp h12
          exact ⟨htok, by simpa using hlen, hblob⟩
